import Mathlib

/-!
Verification of the runnersdash ETL pipeline (extractapplehealth.py,
preparedatasets.py, utils.py, settings.py and the dashboard callbacks).

Python strings are modelled as `List Char`; Python dicts (which preserve
insertion order) as association lists with insert-or-update; Python lists
as Lean lists.  Fallible code returns `Option`/`Except`.

The file is organised as: all definitions first, then all theorems.
-/

/-! # Definitions -/

namespace Runnersdash

/-- `pre` is a prefix of `s` (helper for Python `str.startswith`). -/
def startsWithL : List Char → List Char → Bool
  | [], _ => true
  | _ :: _, [] => false
  | p :: ps, c :: cs => if p = c then startsWithL ps cs else false

/-- Substring containment on char lists (Python `sub in s`, also the
effect of `re.match(".*sub.*", s)` for a literal `sub`). -/
def containsSub (sub : List Char) : List Char → Bool
  | [] => sub.isEmpty
  | c :: cs => startsWithL sub (c :: cs) || containsSub sub cs

/-- Python `str.lower()` (ASCII, as in `Char.toLower`). -/
def pyLower (s : List Char) : List Char := s.map Char.toLower

/-- Python `str.replace(' ', '')`. -/
def pyDropSpaces (s : List Char) : List Char := s.filter (fun c => c ≠ ' ')

/-- Python `str.removeprefix(p)`. -/
def stripPre (p s : List Char) : List Char :=
  if startsWithL p s then s.drop p.length else s

/-- Ordered-dict insert: update the entry for `k` if present, else append
at the end (Python dict assignment `d[k] = v`). -/
def dictInsert {ν : Type} (d : List (List Char × ν)) (k : List Char) (v : ν) :
    List (List Char × ν) :=
  match d with
  | [] => [(k, v)]
  | (k', v') :: rest =>
    if k' = k then (k', v) :: rest else (k', v') :: dictInsert rest k v

/-- Dict lookup (Python `d[k]` / `k in d`). -/
def dictLookup {ν : Type} (k : List Char) : List (List Char × ν) → Option ν
  | [] => none
  | (k', v) :: rest => if k' = k then some v else dictLookup k rest

/-- Python `list.remove(x)`: drop the first occurrence of `x`. -/
def eraseFirst (l : List (List Char)) (x : List Char) : List (List Char) :=
  match l with
  | [] => []
  | y :: rest => if y = x then rest else y :: eraseFirst rest x

end Runnersdash

namespace Runnersdash.Daily

/-! ## preparedatasets.get_daily_agg_method (lines 77-118)

The source walks the column list, lowercases each name and assigns an
aggregation method to `agg[c]` through an if/elif chain.  `dailyAggFor?`
is that per-column chain; `none` corresponds to the `pass` branch
(`elif col == 'Date'`, which compares the *lowercased* name against
`'Date'`).  `get_daily_agg_method` folds the chain into the dict. -/

/-- The if/elif chain of `get_daily_agg_method`, applied to one column. -/
def dailyAggFor? (c : List Char) : Option String :=
  let col := pyLower c
  if containsSub "total".toList col then some "sum"
  else if containsSub "avg".toList col || containsSub "average".toList col then some "mean"
  else if containsSub "maximum".toList col then some "max"
  else if containsSub "minimum".toList col then some "min"
  else if containsSub "duration".toList col then some "sum"
  else if containsSub "startdate".toList col then some "first"
  else if containsSub "enddate".toList col then some "last"
  else if containsSub "menstrual cycle start".toList (pyDropSpaces col) then some "max"
  else if containsSub "elevation".toList col then some "sum"
  else if containsSub "weather".toList col then some "mean"
  else if containsSub "stepcount".toList (pyDropSpaces col) then some "sum"
  else if col = "Date".toList then none
  else some "mean"

/-- `get_daily_agg_method(list_of_cols)`. -/
def get_daily_agg_method (cols : List (List Char)) : List (List Char × String) :=
  cols.foldl (fun agg c =>
    match dailyAggFor? c with
    | some v => dictInsert agg c v
    | none => agg) []

/-- The claim's own rule: only the five listed keywords, default `'mean'`.
Modelled from the words of claim C4, for comparison with the source. -/
def claimedDailyAggFor (c : List Char) : String :=
  let col := pyLower c
  if containsSub "total".toList col then "sum"
  else if containsSub "avg".toList col || containsSub "average".toList col then "mean"
  else if containsSub "maximum".toList col then "max"
  else if containsSub "minimum".toList col then "min"
  else if containsSub "duration".toList col then "sum"
  else "mean"

/-- The map the claim describes. -/
def claimed_daily_agg_method (cols : List (List Char)) : List (List Char × String) :=
  cols.foldl (fun agg c => dictInsert agg c (claimedDailyAggFor c)) []

end Runnersdash.Daily

namespace Runnersdash.Nodes

/-! ## extractapplehealth.get_nodes_after_datetime (lines 190-208)

Nodes are represented by their `startDate` attribute, as an integer
timestamp.  The source starts at `start_idx = -1` and walks backwards
while `l[start_idx] >= date_start`, finally returning the slice
`l[start_idx + 1:]`.  Walking past the front raises `IndexError`
(modelled as `none`).  Note Python's slice `l[-0:]`, reached when the
very last node is already `< date_start`, is `l[0:]`: the whole list. -/

/-- The backward scan, expressed on the reversed list: counts the
run of trailing elements `≥ d`; `none` when the scan runs past the
front of the list (the `IndexError`). -/
def scanBack (d : Int) : List Int → Option Nat
  | [] => none
  | x :: rest => if d ≤ x then (scanBack d rest).map Nat.succ else some 0

/-- `get_nodes_after_datetime(date_start, full_node_list)`.  With
`start_idx = -(k+1)` at loop exit, the returned slice is `l[-k:]`,
which for `k = 0` is the whole list. -/
def get_nodes_after_datetime (d : Int) (l : List Int) : Option (List Int) :=
  match scanBack d l.reverse with
  | none => none
  | some k => some (if k = 0 then l else l.drop (l.length - k))

end Runnersdash.Nodes

namespace Runnersdash.Paths

/-! ## utils.extract_export_date (lines 29-39), settings.py suffixes and
preparedatasets.DatasetPrep.write_to_csv (lines 310-347) file naming. -/

/-- Python `str.split(sep)` for a one-character separator: always
returns a non-empty list of groups, with empty groups kept. -/
def pySplit (sep : Char) : List Char → List (List Char)
  | [] => [[]]
  | c :: rest =>
    if c = sep then [] :: pySplit sep rest
    else
      match pySplit sep rest with
      | [] => [[c]]
      | g :: gs => (c :: g) :: gs

/-- `utils.extract_export_date(db_path)`: last `/`-component, then the
part before the first `_`.  Python's `[-1]`/`[0]` accesses are total
here because `split` never returns an empty list. -/
def extract_export_date (dbPath : List Char) : List Char :=
  let parts := pySplit '/' dbPath
  if parts.length > 1 then ((pySplit '_' (parts.getLastD [])).headD [])
  else ((pySplit '_' (parts.headD [])).headD [])

/-- The `file_type` argument of `write_to_csv` (its five valid values). -/
inductive FileType
  | dAgg
  | wAgg
  | mAgg
  | dResample
  | asIs
deriving DecidableEq

/-- `file_suffix_map` of `write_to_csv`, with the suffix constants of
settings.py. -/
def suffixOf : FileType → List Char
  | .dAgg => "dailyAggregate".toList
  | .wAgg => "weeklyAggregate".toList
  | .mAgg => "monthlyAggregate".toList
  | .dResample => "resampledDaily".toList
  | .asIs => []

/-- The file path built by `DatasetPrep.write_to_csv`:
`f"{PD_OUTPUT_PATH}/{export_date}_"`, then the optional table name
(followed by `'_'` unless `file_type == 'as-is'`), then the suffix and
`".csv"`. -/
def write_to_csv_path (outputPath d : List Char) (tablename : Option (List Char))
    (ft : FileType) : List Char :=
  let pre0 := outputPath ++ '/' :: (d ++ ['_'])
  let pre := match tablename with
    | none => pre0
    | some t => pre0 ++ t ++ (if ft = FileType.asIs then [] else ['_'])
  pre ++ suffixOf ft ++ ".csv".toList

/-- The five `write_to_csv` invocations of a full `preparedatasets.py`
run (its `__main__` block): combined daily/weekly/monthly aggregates with
no table name, then the resampled and the as-is `Running` table. -/
def mainRunFiles (outputPath d : List Char) : List (List Char) :=
  [write_to_csv_path outputPath d none FileType.dAgg,
   write_to_csv_path outputPath d none FileType.wAgg,
   write_to_csv_path outputPath d none FileType.mAgg,
   write_to_csv_path outputPath d (some "Running".toList) FileType.dResample,
   write_to_csv_path outputPath d (some "Running".toList) FileType.asIs]

end Runnersdash.Paths

namespace Runnersdash.Stats

/-! ## dashboard/layout/callbacks/statscard_callbacks.py (lines 11-55)

Each callback is a function of the `clickData` of the weekly time
series (`None` when the user has not clicked).  The body of the
clicked branch calls `get_list_of_stats`, which slices the prepared
CSVs; it is passed in as a parameter `stats` here.  The `Output` lists
of the two `@app.callback` decorators are transcribed verbatim. -/

/-- The seven declared outputs of the weekly stats card callback. -/
def weekStatOutputs : List String :=
  ["week-stat-distance", "week-stat-duration", "week-stat-avgpace",
   "week-stat-avgdistance", "week-stat-avgvo2", "week-stat-avgrhr",
   "week-stats-title"]

/-- The seven declared outputs of the monthly stats card callback. -/
def monthStatOutputs : List String :=
  ["month-stat-distance", "month-stat-duration", "month-stat-avgpace",
   "month-stat-avgdistance", "month-stat-avgvo2", "month-stat-avgrhr",
   "month-stats-title"]

/-- `update_weekly_stats(click_data)`: `[''] * 7` when the click data is
`None`, else the six stats plus a title. -/
def update_weekly_stats (stats : String → List String) :
    Option String → List String
  | none => List.replicate 7 ""
  | some x => stats x ++ ["Week of " ++ x]

/-- `update_monthly_stats(click_data)`: `[''] * 6` when the click data
is `None`, else the six stats plus a title. -/
def update_monthly_stats (stats : String → List String) :
    Option String → List String
  | none => List.replicate 6 ""
  | some x => stats x ++ ["Month of " ++ x]

end Runnersdash.Stats

namespace Runnersdash.Tags

/-! ## extractapplehealth child-tag dispatch

`extract_workout_elements` (lines 311-372) walks every descendant of a
Workout node and dispatches on `child.tag` through an if/elif chain
whose final `else` raises `ValueError`; `extract_record_elements`
(lines 467-491) does the same for Record nodes.  Only the raise
behaviour matters here, so the per-branch bookkeeping is elided and the
elif chain on the tag collapses to a membership test on the tags the
chain handles; the `Except` result propagates the abort. -/

/-- Tags handled by the `extract_workout_elements` child loop. -/
def workoutChildTags : List String :=
  ["Workout", "MetadataEntry", "FileReference", "WorkoutEvent", "WorkoutRoute"]

/-- Tags handled by the `extract_record_elements` child loop. -/
def recordChildTags : List String :=
  ["Record", "MetadataEntry", "InstantaneousBeatsPerMinute",
   "HeartRateVariabilityMetadataList"]

/-- The child loop of `extract_workout_elements`, restricted to its
raise behaviour. -/
def extract_workout_children : List String → Except String Unit
  | [] => Except.ok ()
  | t :: rest =>
    if t ∈ workoutChildTags then extract_workout_children rest
    else Except.error
      ("Have not implemented support for child node of Workout with tag " ++ t)

/-- The child loop of `extract_record_elements`, restricted to its
raise behaviour. -/
def extract_record_children : List String → Except String Unit
  | [] => Except.ok ()
  | t :: rest =>
    if t ∈ recordChildTags then extract_record_children rest
    else Except.error
      ("Have not implemented support for node child of type " ++ t)

end Runnersdash.Tags

namespace Runnersdash.Schema

/-! ## extractapplehealth.add_newcols_to_table (lines 583-611) and
dataframe_to_sql (lines 613-662)

A database table is its column list (including the auto-generated
`'index'` column that `DataFrame.to_sql` creates) plus its rows; rows
are abstract.  `df.to_sql(..., index=True)` first materialises the
frame's index as a column named `'index'` (`reset_index`), so a frame
that *already* has a column named `'index'` raises pandas'
`ValueError: duplicate name in index/columns` before any `INSERT`;
otherwise an `INSERT` of a frame whose columns are not all present in
the table fails with sqlite's OperationalError, whose message contains
`"has no column"`.  The `except` clause of `dataframe_to_sql` catches
only the OperationalErrors — the ValueError propagates uncaught — and
routes the `"has no column"` message to `add_newcols_to_table`.
Python's `set(df.columns) - set(old_cols)` is modelled as a
de-duplicated ordered filter. -/

structure Table where
  cols : List String
  rows : List Nat
deriving DecidableEq

structure Df where
  cols : List String
  rows : List Nat
deriving DecidableEq

/-- `add_newcols_to_table(df, tbl)`.  `old_cols.remove('index')` raises
`ValueError` when the table has no `'index'` column; the
`assert len(new_cols) > 0` raises `AssertionError` when the diff is
empty.  Otherwise the new columns are added by `ALTER TABLE` and the
DataFrame rows appended. -/
def add_newcols_to_table (df : Df) (tbl : Table) : Except String Table :=
  if "index" ∈ tbl.cols then
    let old_cols := tbl.cols.erase "index"
    let new_cols := (df.cols.filter (fun c => decide (c ∉ old_cols))).dedup
    if new_cols.isEmpty then Except.error "AssertionError"
    else Except.ok { cols := tbl.cols ++ new_cols, rows := tbl.rows ++ df.rows }
  else Except.error "ValueError"

/-- The raw `df.to_sql(..., if_exists='append')` call into an existing
table: raises pandas' `ValueError` when the frame itself has a column
named `'index'` (clashing with the materialised index, before any
`INSERT`); otherwise appends when every DataFrame column exists in the
table, else raises sqlite's missing-column OperationalError. -/
def tosqlAppend (df : Df) (tbl : Table) : Except String Table :=
  if "index" ∈ df.cols then
    Except.error "ValueError: duplicate name in index/columns"
  else if df.cols.all (fun c => decide (c ∈ tbl.cols)) then
    Except.ok { cols := tbl.cols, rows := tbl.rows ++ df.rows }
  else Except.error "sqlite3.OperationalError: table has no column named ..."

/-- `dataframe_to_sql(df, table_name, ifexists='append')`: tries the
insert; the `except` clause catches only OperationalErrors — anything
else (the ValueError) propagates — and when the caught message
contains `"has no column"` it retries through `add_newcols_to_table`;
other caught errors are only logged, leaving the table unchanged. -/
def dataframe_to_sql (df : Df) (tbl : Table) : Except String Table :=
  match tosqlAppend df tbl with
  | Except.ok t => Except.ok t
  | Except.error e =>
    if containsSub "OperationalError".toList e.toList then
      if containsSub "has no column".toList e.toList then
        add_newcols_to_table df tbl
      else Except.ok tbl
    else Except.error e

end Runnersdash.Schema

namespace Runnersdash

/-- Minimum of a date column (`df['Date'].min()`); dates are calendar
days numbered from a fixed Monday epoch. -/
def minD : List Nat → Nat
  | [] => 0
  | d :: rest => rest.foldl Nat.min d

/-- Maximum of a date column (`df['Date'].max()`). -/
def maxD : List Nat → Nat
  | [] => 0
  | d :: rest => rest.foldl Nat.max d

end Runnersdash

namespace Runnersdash.Resample

/-! ## preparedatasets.DatasetPrep.get_resampled_workout (lines 858-892)

The daily aggregate is a frame with one row per present calendar day,
modelled as a list of `(date, row)` pairs with distinct dates (a
`groupby` output); rows are abstract.  `resample("D").asfreq()` emits
one row for every calendar day from the earliest to the latest date of
the index, looking each day up in the original index and leaving `NaN`
(here `none`) where the day is absent. -/

/-- Index lookup of `asfreq`: the row at exactly day `d`, if any. -/
def lookupDate (d : Nat) (rows : List (Nat × Nat)) : Option Nat :=
  (rows.find? (fun p => decide (p.1 = d))).map (·.2)

/-- `get_resampled_workout` (its `set_index('Date').resample("D").asfreq()`
core). -/
def get_resampled_workout (rows : List (Nat × Nat)) : List (Nat × Option Nat) :=
  if rows.isEmpty then []
  else
    let dates := rows.map (·.1)
    let lo := minD dates
    let hi := maxD dates
    (List.range (hi - lo + 1)).map (fun k => (lo + k, lookupDate (lo + k) rows))

end Runnersdash.Resample

namespace Runnersdash.Weekly

/-! ## preparedatasets.aggregate_weekly (lines 639-679) and
get_weekly_agg_method (lines 121-157)

`aggregate_weekly` groups the daily aggregate with
`pd.Grouper(key='Date', freq='W-MON', closed='left', label='left')`:
bin edges are Mondays, each bin is the half-open week
`[Monday, next Monday)` labelled by its left edge, and the binner is
the regular range of weeks spanning the data, so weeks inside the span
with no input day still produce a (empty) row.  Days are numbered from
a fixed Monday epoch, so the Monday of day `d`'s week is `d - d % 7`.
The daily frame is modelled as `(date, value)` pairs for one metric
column. -/

/-- The Monday starting the week of day `d`. -/
def weekStart (d : Nat) : Nat := d - d % 7

/-- The regular weekly binner from the week of the earliest day to the
week of the latest day (both included). -/
def weekRange (lo hi : Nat) : List Nat :=
  (List.range ((hi - lo) / 7 + 1)).map (fun k => lo + 7 * k)

/-- `aggregate_weekly`'s grouping: one output row per week bin of the
span, holding the values of the days falling in that bin. -/
def aggregate_weekly (rows : List (Nat × Int)) : List (Nat × List Int) :=
  if rows.isEmpty then []
  else
    let dates := rows.map (·.1)
    let lo := weekStart (minD dates)
    let hi := weekStart (maxD dates)
    (weekRange lo hi).map (fun b =>
      (b, (rows.filter (fun p => decide (weekStart p.1 = b))).map (·.2)))

/-- An aggregation entry of `get_weekly_agg_method`: either a single
method name (`agg[c] = 'max'`) or a list (`agg[c] = ['sum', ...]`). -/
inductive AggSpec
  | one (s : String)
  | many (l : List String)
deriving DecidableEq

/-- The aggregation methods an `AggSpec` stands for. -/
def methodsOf : AggSpec → List String
  | .one s => [s]
  | .many l => l

/-- `workout_cases` of `get_weekly_agg_method`. -/
def workoutCases : List (List Char) :=
  ["Duration".toList, "Total Distance".toList, "Total Energy Burned".toList]

/-- `record_cases` of `get_weekly_agg_method` (the source lists
`'Blood Pressure'` twice). -/
def recordCases : List (List Char) :=
  ["Resting Heart Rate".toList, "VO2 Max".toList, "Body Mass".toList,
   "Heart Rate Variability SDNN".toList, "Blood Pressure".toList,
   "Blood Pressure".toList, "Respiratory Rate".toList]

/-- The `special_cases` dict: workout cases map to
`['sum', 'mean', 'min', 'max']`, record cases to `['mean', 'std']`. -/
def weeklySpecialCases : List (List Char × AggSpec) :=
  (workoutCases.map (fun i => (i, AggSpec.many ["sum", "mean", "min", "max"])) ++
   recordCases.map (fun j => (j, AggSpec.many ["mean", "std"]))).foldl
    (fun d p => dictInsert d p.1 p.2) []

/-- The per-column chain of the second loop of `get_weekly_agg_method`
(over `remaining_cols`), on `c.lower().replace(' ', '')`. -/
def weeklyRemainingFor (c : List Char) : AggSpec :=
  let col := pyDropSpaces (pyLower c)
  if containsSub "elevation".toList col then AggSpec.many ["mean", "min", "max"]
  else if containsSub "pace".toList col then AggSpec.many ["mean", "min", "max"]
  else if containsSub "menstrualcyclestart".toList col then AggSpec.one "max"
  else AggSpec.one "mean"

/-- `get_weekly_agg_method(list_of_cols)`: first every column matching a
special-case pattern (`re.match(f".*{s}.*", ...)`) gets that case's
method list, then every remaining column (the list minus the first
occurrence of each assigned key) goes through `weeklyRemainingFor`. -/
def get_weekly_agg_method (cols : List (List Char)) : List (List Char × AggSpec) :=
  let agg := weeklySpecialCases.foldl (fun agg sv =>
    (cols.filter (fun c => containsSub sv.1 c)).foldl
      (fun a m => dictInsert a m sv.2) agg) []
  let remaining := agg.foldl (fun rem kv => eraseFirst rem kv.1) cols
  remaining.foldl (fun a c => dictInsert a c (weeklyRemainingFor c)) agg

end Runnersdash.Weekly

namespace Runnersdash.Extract

/-! ## extractapplehealth.extract_record_elements (lines 389-513) and
extract_workout_elements (lines 241-387): the chunked queue/flush
discipline.

A top-level node is its declared type attribute plus its attribute row
(abstract).  `table_queue` is a Python dict keyed by the stripped type,
holding the list of rows queued for that table; appending for an unseen
type creates its entry at the end of the dict.  Writes are the
`dataframe_to_sql(df, table_name, 'append')` calls, each carrying the
rows of its DataFrame; appending to a SQL table concatenates rows, so
the rows ever written to table `t` are `rowsFor writes t`.

On every `chunk_size`-th iteration (before processing that node) every
queued list is flushed and reset to `[]` — the Record loop skips empty
lists (`if node_list:`), the Workout loop writes every list, including
empty ones (an empty DataFrame, hence zero rows).  After the loop a
`while table_queue:` loop writes every remaining non-empty list and
deletes every key, leaving the queue empty. -/

/-- The per-type queue (insertion-ordered dict of row lists). -/
abbrev Queue := List (List Char × List Nat)

/-- `PREFIX_TO_STRIP['Record']`. -/
def recordPrefixes : List (List Char) :=
  ["HKQuantityTypeIdentifier".toList, "HKDataType".toList,
   "HKCategoryTypeIdentifier".toList]

/-- The Record loop strips the prefixes in turn:
`for p in PREFIX_TO_STRIP[...]: nodetype = nodetype.removeprefix(p)`. -/
def stripRecordType (s : List Char) : List Char :=
  recordPrefixes.foldl (fun acc p => stripPre p acc) s

/-- The Workout loop's prefix list is the singleton
`['HKWorkoutActivityType']` (its loop re-reads the original attribute
each iteration, which for a one-element list is a single strip). -/
def stripWorkoutType (s : List Char) : List Char :=
  stripPre "HKWorkoutActivityType".toList s

/-- Queueing one node's row: append to its type's list, creating the
entry at the end of the dict on first occurrence. -/
def pushRow : Queue → List Char → Nat → Queue
  | [], k, r => [(k, [r])]
  | (k', l) :: rest, k, r =>
    if k' = k then (k', l ++ [r]) :: rest else (k', l) :: pushRow rest k r

/-- All rows carried by the write events (resp. queue entries) for
table `t`, in order. -/
def rowsFor : List (List Char × List Nat) → List Char → List Nat
  | [], _ => []
  | p :: rest, t => (if p.1 = t then p.2 else []) ++ rowsFor rest t

/-- The keys of the queue. -/
def keysOf (q : Queue) : List (List Char) := q.map (·.1)

/-- The chunk flush of `extract_record_elements` (lines 436-442):
writes every non-empty list, resets lists to `[]`. -/
def flushChunkRecord (q : Queue) : (List (List Char × List Nat)) × Queue :=
  (q.filter (fun p => !p.2.isEmpty), q.map (fun p => (p.1, ([] : List Nat))))

/-- The chunk flush of `extract_workout_elements` (lines 280-285):
writes every list — also empty ones — and resets lists to `[]`. -/
def flushChunkWorkout (q : Queue) : (List (List Char × List Nat)) × Queue :=
  (q, q.map (fun p => (p.1, ([] : List Nat))))

/-- The final `while table_queue:` loop (lines 377-387 and 502-513):
writes every remaining non-empty list and deletes every key. -/
def drainQueue : Queue → (List (List Char × List Nat)) × Queue
  | [] => ([], [])
  | (k, l) :: rest =>
    ((if l.isEmpty then [] else [(k, l)]) ++ (drainQueue rest).1,
     (drainQueue rest).2)

/-- One loop iteration (`for i, node in enumerate(node_list, start=1)`):
flush first when `i % chunk_size == 0`, then queue the node's row under
its stripped type. -/
def stepNode (chunk : Nat) (strip : List Char → List Char)
    (flush : Queue → (List (List Char × List Nat)) × Queue)
    (st : (List (List Char × List Nat)) × Queue) (i : Nat)
    (n : List Char × Nat) : (List (List Char × List Nat)) × Queue :=
  let st1 := if i % chunk = 0 then (st.1 ++ (flush st.2).1, (flush st.2).2)
    else st
  (st1.1, pushRow st1.2 (strip n.1) n.2)

/-- The extraction loop, enumerating from `i`. -/
def runLoop (chunk : Nat) (strip : List Char → List Char)
    (flush : Queue → (List (List Char × List Nat)) × Queue) :
    List (List Char × Nat) → Nat → (List (List Char × List Nat)) × Queue →
      (List (List Char × List Nat)) × Queue
  | [], _, st => st
  | n :: rest, i, st =>
    runLoop chunk strip flush rest (i + 1) (stepNode chunk strip flush st i n)

/-- `extract_record_elements`: the loop from `i = 1` on an empty queue,
then the final drain; returns the write events and the final queue. -/
def extract_record_elements (chunk : Nat) (nodes : List (List Char × Nat)) :
    (List (List Char × List Nat)) × Queue :=
  let st := runLoop chunk stripRecordType flushChunkRecord nodes 1 ([], [])
  (st.1 ++ (drainQueue st.2).1, (drainQueue st.2).2)

/-- `extract_workout_elements`: same discipline with the Workout strip
and chunk flush. -/
def extract_workout_elements (chunk : Nat) (nodes : List (List Char × Nat)) :
    (List (List Char × List Nat)) × Queue :=
  let st := runLoop chunk stripWorkoutType flushChunkWorkout nodes 1 ([], [])
  (st.1 ++ (drainQueue st.2).1, (drainQueue st.2).2)

end Runnersdash.Extract

/-! # Theorems -/

namespace Runnersdash

theorem dictLookup_dictInsert_self {ν : Type} (d : List (List Char × ν))
    (k : List Char) (v : ν) : dictLookup k (dictInsert d k v) = some v := by
  induction d with
  | nil => simp [dictInsert, dictLookup]
  | cons p rest ih =>
    obtain ⟨k', v'⟩ := p
    by_cases h : k' = k
    · simp [dictInsert, dictLookup, h]
    · simp [dictInsert, dictLookup, h, ih]

theorem dictLookup_dictInsert_ne {ν : Type} (d : List (List Char × ν))
    (k k' : List Char) (v : ν) (h : k ≠ k') :
    dictLookup k' (dictInsert d k v) = dictLookup k' d := by
  induction d with
  | nil => simp [dictInsert, dictLookup, h]
  | cons p rest ih =>
    obtain ⟨k₀, v₀⟩ := p
    by_cases h₀ : k₀ = k
    · subst h₀; simp [dictInsert, dictLookup, h]
    · simp [dictInsert, dictLookup, h₀, ih]

end Runnersdash

namespace Runnersdash.Daily

theorem daily_fold_lookup (cols : List (List Char))
    (agg : List (List Char × String)) (c : List Char) :
    dictLookup c (cols.foldl (fun agg c =>
      match dailyAggFor? c with
      | some v => dictInsert agg c v
      | none => agg) agg) =
    if c ∈ cols ∧ (dailyAggFor? c).isSome then dailyAggFor? c
    else dictLookup c agg := by
  induction cols generalizing agg with
  | nil => simp
  | cons c₀ rest ih =>
    simp only [List.foldl_cons]
    rw [ih]
    by_cases hmem : c ∈ rest ∧ (dailyAggFor? c).isSome
    · simp [hmem, List.mem_cons, hmem.1, hmem.2]
    · simp only [hmem, if_false]
      by_cases hc : c₀ = c
      · subst hc
        cases hv : dailyAggFor? c₀ with
        | none => simp [hv, List.mem_cons]
        | some v =>
          simp only [hv]
          rw [dictLookup_dictInsert_self]
          simp [List.mem_cons, hv]
      · have hlook : dictLookup c (match dailyAggFor? c₀ with
            | some v => dictInsert agg c₀ v
            | none => agg) = dictLookup c agg := by
          cases hv : dailyAggFor? c₀ with
          | none => rfl
          | some v => exact dictLookup_dictInsert_ne agg c₀ c v hc
        rw [hlook]
        have : (c ∈ c₀ :: rest ∧ (dailyAggFor? c).isSome) ↔
            (c ∈ rest ∧ (dailyAggFor? c).isSome) := by
          constructor
          · rintro ⟨hm, hs⟩
            rcases List.mem_cons.mp hm with h | h
            · exact absurd h.symm hc
            · exact ⟨h, hs⟩
          · rintro ⟨hm, hs⟩; exact ⟨List.mem_cons_of_mem _ hm, hs⟩
        rw [if_neg]
        intro hcontra
        exact hmem (this.mp hcontra)

/-- C4 counterexample: on the column list `['startDate']` the source map
assigns `'first'` (the `'startdate'` branch), while the claim's
five-keyword rule with default `'mean'` assigns `'mean'`. -/
theorem get_daily_agg_method_startdate_counterexample :
    get_daily_agg_method ["startDate".toList] ≠
      claimed_daily_agg_method ["startDate".toList] ∧
    get_daily_agg_method ["startDate".toList] =
      [("startDate".toList, "first")] ∧
    claimed_daily_agg_method ["startDate".toList] =
      [("startDate".toList, "mean")] := by
  refine ⟨?_, by decide, by decide⟩
  decide

/-- C4 (amended): `get_daily_agg_method` assigns to every listed column
exactly the method given by the per-column keyword chain `dailyAggFor?`
(lowercased-substring tests, in source order: total→sum, avg/average→mean,
maximum→max, minimum→min, duration→sum, startdate→first, enddate→last,
menstrual-cycle-start→max, elevation→sum, weather→mean, stepcount→sum,
default mean), so the rule is a function of the column name alone. -/
theorem get_daily_agg_method_lookup_rule (cols : List (List Char))
    (c : List Char) (hc : c ∈ cols) :
    dictLookup c (get_daily_agg_method cols) = dailyAggFor? c := by
  rw [get_daily_agg_method, daily_fold_lookup]
  cases hv : dailyAggFor? c with
  | none => simp [hv, dictLookup]
  | some v => simp [hv, hc]

/-- Witness for `get_daily_agg_method_lookup_rule` at a concrete input. -/
theorem get_daily_agg_method_lookup_rule_witness :
    dictLookup "Total Distance (km)".toList
      (get_daily_agg_method ["Total Distance (km)".toList, "VO2Max".toList]) =
      dailyAggFor? "Total Distance (km)".toList ∧
    dailyAggFor? "Total Distance (km)".toList = some "sum" := by
  refine ⟨get_daily_agg_method_lookup_rule _ _ (by decide), by decide⟩

end Runnersdash.Daily

namespace Runnersdash.Nodes

theorem scanBack_all_ge (d : Int) (r : List Int) (h : ∀ x ∈ r, d ≤ x) :
    scanBack d r = none := by
  induction r with
  | nil => rfl
  | cons x rest ih =>
    have hx : d ≤ x := h x (List.mem_cons_self x rest)
    simp [scanBack, hx, ih fun y hy => h y (List.mem_cons_of_mem _ hy)]

theorem scanBack_split (d : Int) (r₁ : List Int) (x : Int) (r₂ : List Int)
    (h₁ : ∀ y ∈ r₁, d ≤ y) (hx : x < d) :
    scanBack d (r₁ ++ x :: r₂) = some r₁.length := by
  induction r₁ with
  | nil => simp [scanBack, not_le.mpr hx]
  | cons y ys ih =>
    have hy : d ≤ y := h₁ y (List.mem_cons_self y ys)
    have ih' := ih fun z hz => h₁ z (List.mem_cons_of_mem _ hz)
    simp [scanBack, hy, ih']

theorem sorted_dropWhile_ge (d : Int) (l : List Int)
    (hs : l.Sorted (· ≤ ·)) :
    ∀ x ∈ l.dropWhile (fun x => decide (x < d)), d ≤ x := by
  induction l with
  | nil => simp
  | cons a rest ih =>
    rw [List.sorted_cons] at hs
    intro x hx
    by_cases ha : a < d
    · rw [List.dropWhile_cons_of_pos (by simpa using ha)] at hx
      exact ih hs.2 x hx
    · rw [List.dropWhile_cons_of_neg (by simpa using ha)] at hx
      rcases List.mem_cons.mp hx with h | h
      · exact h ▸ not_lt.mp ha
      · exact le_trans (not_lt.mp ha) (hs.1 x h)

/-- C9 counterexample: on the singleton list `[5]` with cutoff `10`,
every node is strictly earlier than the cutoff, yet the slice
`l[start_idx + 1:]` degenerates to `l[0:]` and the whole list is
returned instead of the empty suffix of nodes `≥ 10`. -/
theorem get_nodes_after_datetime_all_before_counterexample :
    (∃ x ∈ ([5] : List Int), x < 10) ∧
    get_nodes_after_datetime 10 [5] = some [5] ∧
    get_nodes_after_datetime 10 [5] ≠
      some (([5] : List Int).filter (fun x => decide ((10 : Int) ≤ x))) := by
  decide

/-- C9 (amended): on a list sorted by `startDate`, (1) when some node is
strictly earlier than the cutoff and some node is at-or-after it, the
function returns exactly the suffix of nodes `≥` the cutoff; (2) when
every node is strictly earlier, the slice index wraps to zero and the
whole list is returned; (3) when every node is `≥` the cutoff, the
backward scan runs past the front of the list and the index access
fails. -/
theorem get_nodes_after_datetime_spec (d : Int) (l : List Int)
    (hs : l.Sorted (· ≤ ·)) :
    ((∃ x ∈ l, x < d) → (∃ x ∈ l, d ≤ x) →
      get_nodes_after_datetime d l =
        some (l.filter (fun x => decide (d ≤ x)))) ∧
    (l ≠ [] → (∀ x ∈ l, x < d) →
      get_nodes_after_datetime d l = some l) ∧
    ((∀ x ∈ l, d ≤ x) → get_nodes_after_datetime d l = none) := by
  refine ⟨?_, ?_, ?_⟩
  · rintro ⟨xl, hxl, hxlt⟩ ⟨xg, hxg, hxge⟩
    set p : Int → Bool := fun x => decide (x < d) with hp
    have htlt : ∀ y ∈ l.takeWhile p, y < d := by
      intro y hy
      have := List.mem_takeWhile_imp hy
      simpa [hp] using this
    have hrge : ∀ y ∈ l.dropWhile p, d ≤ y := sorted_dropWhile_ge d l hs
    obtain ⟨t, ht⟩ : ∃ t, t = l.takeWhile p := ⟨_, rfl⟩
    obtain ⟨r, hr⟩ : ∃ r, r = l.dropWhile p := ⟨_, rfl⟩
    rw [← ht] at htlt
    rw [← hr] at hrge
    have hsplit : t ++ r = l := by
      rw [ht, hr]; exact List.takeWhile_append_dropWhile p l
    -- the strictly-earlier witness lies in the takeWhile part
    have htne : t ≠ [] := by
      intro hnil
      rw [← hsplit, hnil, List.nil_append] at hxl
      exact absurd hxlt (not_lt.mpr (hrge xl hxl))
    -- the at-or-after witness lies in the dropWhile part
    have hrne : r ≠ [] := by
      intro hnil
      rw [← hsplit, hnil, List.append_nil] at hxg
      exact absurd hxge (not_le.mpr (htlt xg hxg))
    obtain ⟨x, r₂, hrev⟩ := List.exists_cons_of_ne_nil
      (fun h => htne (List.reverse_eq_nil_iff.mp h) : t.reverse ≠ [])
    have hxmem : x ∈ t := by
      rw [← List.mem_reverse, hrev]; exact List.mem_cons_self x r₂
    have hscan : scanBack d l.reverse = some r.length := by
      rw [← hsplit, List.reverse_append, hrev]
      rw [scanBack_split d _ x r₂
        (fun y hy => hrge y (List.mem_reverse.mp hy)) (htlt x hxmem)]
      rw [List.length_reverse]
    have hk : r.length ≠ 0 := by
      simpa [List.length_eq_zero] using hrne
    have hlth : l.length = t.length + r.length := by
      rw [← hsplit, List.length_append]
    have hdrop : l.drop (l.length - r.length) = r := by
      have : l.length - r.length = t.length := by omega
      rw [this, ← hsplit]
      exact List.drop_left _ _
    have hfilter : l.filter (fun x => decide (d ≤ x)) = r := by
      rw [← hsplit, List.filter_append]
      rw [List.filter_eq_nil_iff.mpr (by intro a ha; simpa using not_le.mpr (htlt a ha)),
        List.filter_eq_self.mpr (by intro a ha; simpa using hrge a ha)]
      simp
    rw [get_nodes_after_datetime, hscan]
    show some (if r.length = 0 then l else l.drop (l.length - r.length)) =
      some (l.filter fun x => decide (d ≤ x))
    rw [if_neg hk, hdrop, hfilter]
  · intro hne hlt
    obtain ⟨x, r₂, hrev⟩ := List.exists_cons_of_ne_nil
      (fun h => hne (List.reverse_eq_nil_iff.mp h) : l.reverse ≠ [])
    have hx : x < d := hlt x (List.mem_reverse.mp (hrev ▸ List.mem_cons_self x r₂))
    have h0 : scanBack d l.reverse = some 0 := by
      rw [hrev]; simp [scanBack, not_le.mpr hx]
    rw [get_nodes_after_datetime, h0]
    show some (if (0 : Nat) = 0 then l else l.drop (l.length - 0)) = some l
    simp
  · intro hge
    have : scanBack d l.reverse = none :=
      scanBack_all_ge d _ fun x hx => hge x (List.mem_reverse.mp hx)
    rw [get_nodes_after_datetime, this]

/-- Witness for `get_nodes_after_datetime_spec` on the list `[1, 20]`
with cutoff `10`: the suffix `[20]` is returned. -/
theorem get_nodes_after_datetime_spec_witness :
    get_nodes_after_datetime 10 [1, 20] =
      some (([1, 20] : List Int).filter (fun x => decide ((10 : Int) ≤ x))) := by
  exact (get_nodes_after_datetime_spec 10 [1, 20] (by decide)).1
    ⟨1, by decide, by decide⟩ ⟨20, by decide, by decide⟩

end Runnersdash.Nodes

namespace Runnersdash.Paths

theorem pySplit_ne_nil (sep : Char) (l : List Char) : pySplit sep l ≠ [] := by
  induction l with
  | nil => simp [pySplit]
  | cons c rest ih =>
    by_cases hc : c = sep
    · simp [pySplit, hc]
    · cases hP : pySplit sep rest with
      | nil => exact absurd hP ih
      | cons g gs => simp [pySplit, hc, hP]

theorem pySplit_no_sep (sep : Char) (r : List Char) (h : sep ∉ r) :
    pySplit sep r = [r] := by
  induction r with
  | nil => rfl
  | cons c cs ih =>
    have hc : ¬ c = sep := fun hh => h (hh ▸ List.mem_cons_self c cs)
    have ih' := ih fun hh => h (List.mem_cons_of_mem _ hh)
    simp [pySplit, hc, ih']

theorem pySplit_length_ge_two (sep : Char) (x r : List Char) :
    2 ≤ (pySplit sep (x ++ sep :: r)).length := by
  induction x with
  | nil =>
    rw [List.nil_append, pySplit, if_pos rfl]
    have hlen : 0 < (pySplit sep r).length :=
      List.length_pos.mpr (pySplit_ne_nil sep r)
    simp only [List.length_cons]
    omega
  | cons c xs ih =>
    rw [List.cons_append, pySplit]
    by_cases hc : c = sep
    · rw [if_pos hc]
      have hlen : 0 < (pySplit sep (xs ++ sep :: r)).length :=
        List.length_pos.mpr (pySplit_ne_nil sep _)
      simp only [List.length_cons]
      omega
    · rw [if_neg hc]
      cases hP : pySplit sep (xs ++ sep :: r) with
      | nil => exact absurd hP (pySplit_ne_nil sep _)
      | cons g gs =>
        have hlen := ih
        rw [hP] at hlen
        show 2 ≤ ((c :: g) :: gs).length
        simp only [List.length_cons] at hlen ⊢
        omega

theorem pySplit_last (sep : Char) (x r : List Char) (h : sep ∉ r) :
    (pySplit sep (x ++ sep :: r)).getLastD [] = r := by
  induction x with
  | nil =>
    rw [List.nil_append, pySplit, if_pos rfl, pySplit_no_sep sep r h]
    rfl
  | cons c xs ih =>
    rw [List.cons_append, pySplit]
    by_cases hc : c = sep
    · rw [if_pos hc, List.getLastD_cons]
      exact ih
    · rw [if_neg hc]
      cases hP : pySplit sep (xs ++ sep :: r) with
      | nil => exact absurd hP (pySplit_ne_nil sep _)
      | cons g gs =>
        have hlen := pySplit_length_ge_two sep xs r
        rw [hP] at hlen
        simp only [List.length_cons] at hlen
        have hgs : gs ≠ [] := by
          intro hnil
          rw [hnil] at hlen
          simp at hlen
        have ihP : (g :: gs).getLastD [] = r := by rw [← hP]; exact ih
        show ((c :: g) :: gs).getLastD [] = r
        rw [List.getLastD_cons] at ihP ⊢
        rw [List.getLastD_eq_getLast?] at ihP ⊢
        cases hgl : gs.getLast? with
        | none => exact absurd (List.getLast?_eq_none_iff.mp hgl) hgs
        | some y =>
          rw [hgl] at ihP
          simpa using ihP

theorem pySplit_head (sep : Char) (a s : List Char) (h : sep ∉ a) :
    (pySplit sep (a ++ sep :: s)).headD [] = a := by
  induction a with
  | nil =>
    rw [List.nil_append, pySplit, if_pos rfl]
    rfl
  | cons c as ih =>
    have hc : ¬ c = sep := fun hh => h (hh ▸ List.mem_cons_self c as)
    have ih' := ih fun hh => h (List.mem_cons_of_mem _ hh)
    rw [List.cons_append, pySplit, if_neg hc]
    cases hP : pySplit sep (as ++ sep :: s) with
    | nil => exact absurd hP (pySplit_ne_nil sep _)
    | cons g gs =>
      have hg : g = as := by
        rw [hP] at ih'
        simpa using ih'
      show ((c :: g) :: gs).headD [] = c :: as
      rw [List.headD_cons, hg]

theorem extract_from_shaped (dir d tail : List Char) (hdu : '_' ∉ d)
    (hds : '/' ∉ d) (htail : '/' ∉ tail) :
    extract_export_date (dir ++ '/' :: (d ++ '_' :: tail)) = d := by
  have hrest : '/' ∉ d ++ '_' :: tail := by
    intro hmem
    rcases List.mem_append.mp hmem with hm | hm
    · exact hds hm
    · rcases List.mem_cons.mp hm with hm | hm
      · exact absurd hm (by decide)
      · exact htail hm
  have hlast : (pySplit '/' (dir ++ '/' :: (d ++ '_' :: tail))).getLastD [] =
      d ++ '_' :: tail := pySplit_last '/' dir _ hrest
  have hlen := pySplit_length_ge_two '/' dir (d ++ '_' :: tail)
  rw [extract_export_date]
  rw [if_pos (by omega), hlast, pySplit_head '_' d tail hdu]

/-- C10 counterexample: with a table name containing a slash, the last
path component no longer starts with the export date and the round trip
fails even though the export date `"20220320"` contains neither an
underscore nor a slash. -/
theorem export_date_roundtrip_slash_counterexample :
    ('_' ∉ "20220320".toList) ∧ ('/' ∉ "20220320".toList) ∧
    extract_export_date (write_to_csv_path "data".toList "20220320".toList
      (some "a/b".toList) FileType.dResample) = "b".toList ∧
    "b".toList ≠ "20220320".toList := by
  decide

/-- C10 (amended): for every directory, export date `d` with no
underscore and no slash, table name with no slash, and file-type
suffix, `extract_export_date` recovers `d` from the path produced by
`write_to_csv`. -/
theorem export_date_roundtrip (dir d : List Char) (t : Option (List Char))
    (ft : FileType) (hdu : '_' ∉ d) (hds : '/' ∉ d)
    (hts : ∀ x, t = some x → '/' ∉ x) :
    extract_export_date (write_to_csv_path dir d t ft) = d := by
  cases t with
  | none =>
    have hshape : write_to_csv_path dir d none ft =
        dir ++ '/' :: (d ++ '_' :: (suffixOf ft ++ ".csv".toList)) := by
      simp [write_to_csv_path, List.append_assoc]
    rw [hshape]
    refine extract_from_shaped dir d _ hdu hds ?_
    cases ft <;> decide
  | some tb =>
    have hshape : write_to_csv_path dir d (some tb) ft =
        dir ++ '/' :: (d ++ '_' :: (tb ++
          ((if ft = FileType.asIs then [] else ['_']) ++
            (suffixOf ft ++ ".csv".toList)))) := by
      simp [write_to_csv_path, List.append_assoc]
    rw [hshape]
    refine extract_from_shaped dir d _ hdu hds ?_
    intro hmem
    rcases List.mem_append.mp hmem with hm | hm
    · exact hts tb rfl hm
    · revert hm
      cases ft <;> decide

/-- Witness for `export_date_roundtrip` at a concrete path. -/
theorem export_date_roundtrip_witness :
    extract_export_date (write_to_csv_path "data".toList "20220320".toList
      (some "Running".toList) FileType.dResample) = "20220320".toList := by
  exact export_date_roundtrip "data".toList "20220320".toList
    (some "Running".toList) FileType.dResample (by decide) (by decide)
    (fun x hx => by cases hx; decide)

/-- C6: a full preparation run writes exactly five CSVs, named by the
export-date prefix followed by `dailyAggregate`, `weeklyAggregate`,
`monthlyAggregate`, `Running_resampledDaily` and `Running`. -/
theorem prep_run_writes_five_csvs (p d : List Char) :
    mainRunFiles p d =
      [p ++ '/' :: (d ++ "_dailyAggregate.csv".toList),
       p ++ '/' :: (d ++ "_weeklyAggregate.csv".toList),
       p ++ '/' :: (d ++ "_monthlyAggregate.csv".toList),
       p ++ '/' :: (d ++ "_Running_resampledDaily.csv".toList),
       p ++ '/' :: (d ++ "_Running.csv".toList)] ∧
    (mainRunFiles p d).length = 5 := by
  constructor
  · have c1 : ('_' :: ("dailyAggregate".toList ++ ".csv".toList) : List Char) =
        "_dailyAggregate.csv".toList := by decide
    have c2 : ('_' :: ("weeklyAggregate".toList ++ ".csv".toList) : List Char) =
        "_weeklyAggregate.csv".toList := by decide
    have c3 : ('_' :: ("monthlyAggregate".toList ++ ".csv".toList) : List Char) =
        "_monthlyAggregate.csv".toList := by decide
    have c4 : ('_' :: ("Running".toList ++
        '_' :: ("resampledDaily".toList ++ ".csv".toList)) : List Char) =
        "_Running_resampledDaily.csv".toList := by decide
    have c5 : ('_' :: ("Running".toList ++ ".csv".toList) : List Char) =
        "_Running.csv".toList := by decide
    rw [← c1, ← c2, ← c3, ← c4, ← c5]
    simp [mainRunFiles, write_to_csv_path, suffixOf, List.append_assoc]
  · rfl

end Runnersdash.Paths

namespace Runnersdash.Stats

/-- C8: with `click_data = None`, `update_weekly_stats` returns one
empty-string placeholder per declared output (seven for seven), but
`update_monthly_stats` returns only six placeholder strings for its
seven declared outputs (`return [''] * 6` under a decorator that lists
seven `Output`s). -/
theorem update_monthly_stats_returns_six_placeholders
    (stats : String → List String) :
    update_weekly_stats stats none = List.replicate 7 "" ∧
    (update_weekly_stats stats none).length = weekStatOutputs.length ∧
    update_monthly_stats stats none = List.replicate 6 "" ∧
    (update_monthly_stats stats none).length = 6 ∧
    monthStatOutputs.length = 7 := by
  exact ⟨rfl, rfl, rfl, rfl, rfl⟩

end Runnersdash.Stats

namespace Runnersdash.Tags

theorem workout_children_error_of_bad (tags : List String) (t : String)
    (hmem : t ∈ tags) (hbad : t ∉ workoutChildTags) :
    ∃ e, extract_workout_children tags = Except.error e := by
  induction tags with
  | nil => cases hmem
  | cons t₀ rest ih =>
    by_cases h₀ : t₀ ∈ workoutChildTags
    · have hrest : t ∈ rest := by
        rcases List.mem_cons.mp hmem with h | h
        · exact absurd (h ▸ h₀) hbad
        · exact h
      obtain ⟨e, he⟩ := ih hrest
      exact ⟨e, by rw [extract_workout_children, if_pos h₀]; exact he⟩
    · exact ⟨_, by rw [extract_workout_children, if_neg h₀]⟩

theorem record_children_error_of_bad (tags : List String) (t : String)
    (hmem : t ∈ tags) (hbad : t ∉ recordChildTags) :
    ∃ e, extract_record_children tags = Except.error e := by
  induction tags with
  | nil => cases hmem
  | cons t₀ rest ih =>
    by_cases h₀ : t₀ ∈ recordChildTags
    · have hrest : t ∈ rest := by
        rcases List.mem_cons.mp hmem with h | h
        · exact absurd (h ▸ h₀) hbad
        · exact h
      obtain ⟨e, he⟩ := ih hrest
      exact ⟨e, by rw [extract_record_children, if_pos h₀]; exact he⟩
    · exact ⟨_, by rw [extract_record_children, if_neg h₀]⟩

theorem workout_children_stops (pre : List String) (t : String)
    (post post' : List String) (hbad : t ∉ workoutChildTags) :
    extract_workout_children (pre ++ t :: post) =
      extract_workout_children (pre ++ t :: post') := by
  induction pre with
  | nil => simp [extract_workout_children, hbad]
  | cons p ps ih =>
    rw [List.cons_append, List.cons_append,
      extract_workout_children, extract_workout_children]
    by_cases hp : p ∈ workoutChildTags
    · rw [if_pos hp, if_pos hp]; exact ih
    · rw [if_neg hp, if_neg hp]

theorem record_children_stops (pre : List String) (t : String)
    (post post' : List String) (hbad : t ∉ recordChildTags) :
    extract_record_children (pre ++ t :: post) =
      extract_record_children (pre ++ t :: post') := by
  induction pre with
  | nil => simp [extract_record_children, hbad]
  | cons p ps ih =>
    rw [List.cons_append, List.cons_append,
      extract_record_children, extract_record_children]
    by_cases hp : p ∈ recordChildTags
    · rw [if_pos hp, if_pos hp]; exact ih
    · rw [if_neg hp, if_neg hp]

/-- C7: a descendant tag of a Workout node outside
`{Workout, MetadataEntry, FileReference, WorkoutEvent, WorkoutRoute}`
makes `extract_workout_elements` raise `ValueError`, and a descendant
tag of a Record node outside `{Record, MetadataEntry,
InstantaneousBeatsPerMinute, HeartRateVariabilityMetadataList}` makes
`extract_record_elements` raise `ValueError`; the result is the same
whatever follows the offending node, i.e. extraction does not continue
past it. -/
theorem unexpected_child_tag_raises (tags : List String) (t : String)
    (hmem : t ∈ tags) :
    (t ∉ workoutChildTags →
      ∃ e, extract_workout_children tags = Except.error e) ∧
    (t ∉ recordChildTags →
      ∃ e, extract_record_children tags = Except.error e) ∧
    (∀ pre post post', t ∉ workoutChildTags →
      extract_workout_children (pre ++ t :: post) =
        extract_workout_children (pre ++ t :: post')) ∧
    (∀ pre post post', t ∉ recordChildTags →
      extract_record_children (pre ++ t :: post) =
        extract_record_children (pre ++ t :: post')) := by
  refine ⟨fun hbad => workout_children_error_of_bad tags t hmem hbad,
    fun hbad => record_children_error_of_bad tags t hmem hbad,
    fun pre post post' hbad => workout_children_stops pre t post post' hbad,
    fun pre post post' hbad => record_children_stops pre t post post' hbad⟩

/-- Witness for `unexpected_child_tag_raises`: a `Correlation` child
aborts both extraction loops. -/
theorem unexpected_child_tag_raises_witness :
    (∃ e, extract_workout_children ["MetadataEntry", "Correlation"] =
      Except.error e) ∧
    (∃ e, extract_record_children ["MetadataEntry", "Correlation"] =
      Except.error e) := by
  have h := unexpected_child_tag_raises ["MetadataEntry", "Correlation"]
    "Correlation" (by decide)
  exact ⟨h.1 (by decide), h.2.1 (by decide)⟩

end Runnersdash.Tags

namespace Runnersdash.Schema

/-- C2: when `dataframe_to_sql` catches an operational error whose
message contains `"has no column"` (which requires the frame to carry
no `'index'` column of its own, since such a frame dies earlier on
pandas' uncaught ValueError), `add_newcols_to_table` is invoked and
adds to the table exactly the columns of df that the table lacks — a
non-empty set, so its assert passes — and then appends all rows of df;
afterwards every column of df exists in the table.  The table carries
the auto-generated `'index'` column, as every table written by
`to_sql` does. -/
theorem dataframe_to_sql_retry_adds_missing_cols (df : Df) (tbl : Table)
    (hidx : "index" ∈ tbl.cols)
    (herr : ∃ e, tosqlAppend df tbl = Except.error e ∧
      containsSub "has no column".toList e.toList = true) :
    ∃ t', dataframe_to_sql df tbl = Except.ok t' ∧
      t'.cols = tbl.cols ++
        (df.cols.filter (fun c => decide (c ∉ tbl.cols))).dedup ∧
      (df.cols.filter (fun c => decide (c ∉ tbl.cols))).dedup ≠ [] ∧
      (∀ c ∈ df.cols, c ∈ t'.cols) ∧
      t'.rows = tbl.rows ++ df.rows := by
  -- the 'has no column' error is reachable only without an 'index' column
  have hdfidx : "index" ∉ df.cols := by
    intro hmem
    obtain ⟨e, he, hsub⟩ := herr
    rw [tosqlAppend, if_pos hmem] at he
    injection he with he'
    rw [← he'] at hsub
    exact absurd hsub (by decide)
  -- and only when some df column is missing from the table
  have hmiss : ∃ c ∈ df.cols, c ∉ tbl.cols := by
    by_contra hcontra
    push_neg at hcontra
    have hall : df.cols.all (fun c => decide (c ∈ tbl.cols)) = true :=
      List.all_eq_true.mpr (fun c hc => by simpa using hcontra c hc)
    obtain ⟨e, he, _⟩ := herr
    rw [tosqlAppend, if_neg hdfidx, if_pos hall] at he
    simp at he
  obtain ⟨c₀, hc₀, hnc₀⟩ := hmiss
  have hall : ¬ (df.cols.all (fun c => decide (c ∈ tbl.cols)) = true) := by
    intro h
    exact hnc₀ (by simpa using List.all_eq_true.mp h c₀ hc₀)
  have htosql : tosqlAppend df tbl =
      Except.error "sqlite3.OperationalError: table has no column named ..." := by
    rw [tosqlAppend, if_neg hdfidx, if_neg hall]
  -- with no 'index' column in df, excluding 'index' from the
  -- comparison set changes nothing: the diff is what the table lacks
  have hfeq : df.cols.filter (fun c => decide (c ∉ tbl.cols.erase "index")) =
      df.cols.filter (fun c => decide (c ∉ tbl.cols)) := by
    apply List.filter_congr
    intro c hc
    have hcne : c ≠ "index" := fun h => hdfidx (h ▸ hc)
    simp [List.mem_erase_of_ne hcne]
  have hfil : c₀ ∈ df.cols.filter (fun c => decide (c ∉ tbl.cols)) :=
    List.mem_filter.mpr ⟨hc₀, by simpa using hnc₀⟩
  have hded : c₀ ∈ (df.cols.filter (fun c => decide (c ∉ tbl.cols))).dedup :=
    List.mem_dedup.mpr hfil
  have hne : ¬ ((df.cols.filter
      (fun c => decide (c ∉ tbl.cols.erase "index"))).dedup.isEmpty = true) := by
    rw [List.isEmpty_iff, hfeq]
    exact List.ne_nil_of_mem hded
  have hadd : add_newcols_to_table df tbl = Except.ok
      { cols := tbl.cols ++
          (df.cols.filter (fun c => decide (c ∉ tbl.cols))).dedup,
        rows := tbl.rows ++ df.rows } := by
    rw [add_newcols_to_table]
    rw [if_pos hidx, if_neg hne, hfeq]
  refine ⟨Table.mk (tbl.cols ++
      (df.cols.filter (fun c => decide (c ∉ tbl.cols))).dedup)
      (tbl.rows ++ df.rows), ?_, rfl, List.ne_nil_of_mem hded, ?_, rfl⟩
  · rw [dataframe_to_sql, htosql]
    show (if containsSub "OperationalError".toList
        "sqlite3.OperationalError: table has no column named ...".toList = true
      then
        if containsSub "has no column".toList
            "sqlite3.OperationalError: table has no column named ...".toList = true
        then add_newcols_to_table df tbl
        else Except.ok tbl
      else Except.error
        "sqlite3.OperationalError: table has no column named ...") = _
    rw [if_pos (by decide), if_pos (by decide), hadd]
  · intro c hc
    by_cases hce : c ∈ tbl.cols
    · exact List.mem_append.mpr (Or.inl hce)
    · refine List.mem_append.mpr (Or.inr (List.mem_dedup.mpr
        (List.mem_filter.mpr ⟨hc, ?_⟩)))
      simpa using hce

/-- Witness for `dataframe_to_sql_retry_adds_missing_cols`: a DataFrame
column `'y'` missing from the table is retrofitted and the row
appended. -/
theorem dataframe_to_sql_retry_adds_missing_cols_witness :
    ∃ t', dataframe_to_sql ⟨["y"], [2]⟩ ⟨["index", "x"], []⟩ = Except.ok t' ∧
      t'.cols = (⟨["index", "x"], []⟩ : Table).cols ++
        ((⟨["y"], [2]⟩ : Df).cols.filter
          (fun c => decide (c ∉ (⟨["index", "x"], []⟩ : Table).cols))).dedup ∧
      ((⟨["y"], [2]⟩ : Df).cols.filter
        (fun c => decide (c ∉ (⟨["index", "x"], []⟩ : Table).cols))).dedup ≠ [] ∧
      (∀ c ∈ (⟨["y"], [2]⟩ : Df).cols, c ∈ t'.cols) ∧
      t'.rows = (⟨["index", "x"], []⟩ : Table).rows ++ (⟨["y"], [2]⟩ : Df).rows := by
  exact dataframe_to_sql_retry_adds_missing_cols ⟨["y"], [2]⟩
    ⟨["index", "x"], []⟩ (by decide)
    ⟨"sqlite3.OperationalError: table has no column named ...", by rfl, by decide⟩

end Runnersdash.Schema

namespace Runnersdash

theorem foldl_min_le_init (l : List Nat) (a : Nat) : l.foldl Nat.min a ≤ a := by
  induction l generalizing a with
  | nil => exact le_refl a
  | cons x xs ih =>
    exact le_trans (ih (Nat.min a x)) (Nat.min_le_left a x)

theorem foldl_min_le_mem (l : List Nat) (a x : Nat) (hx : x ∈ l) :
    l.foldl Nat.min a ≤ x := by
  induction l generalizing a with
  | nil => cases hx
  | cons y ys ih =>
    rcases List.mem_cons.mp hx with h | h
    · subst h
      exact le_trans (foldl_min_le_init ys (Nat.min a x)) (Nat.min_le_right a x)
    · exact ih _ h

theorem le_foldl_max_init (l : List Nat) (a : Nat) : a ≤ l.foldl Nat.max a := by
  induction l generalizing a with
  | nil => exact le_refl a
  | cons x xs ih =>
    exact le_trans (Nat.le_max_left a x) (ih (Nat.max a x))

theorem le_foldl_max_mem (l : List Nat) (a x : Nat) (hx : x ∈ l) :
    x ≤ l.foldl Nat.max a := by
  induction l generalizing a with
  | nil => cases hx
  | cons y ys ih =>
    rcases List.mem_cons.mp hx with h | h
    · subst h
      exact le_trans (Nat.le_max_right a x) (le_foldl_max_init ys (Nat.max a x))
    · exact ih _ h

theorem minD_le (l : List Nat) (x : Nat) (hx : x ∈ l) : minD l ≤ x := by
  cases l with
  | nil => cases hx
  | cons d rest =>
    rcases List.mem_cons.mp hx with h | h
    · subst h; exact foldl_min_le_init rest x
    · exact foldl_min_le_mem rest d x h

theorem le_maxD (l : List Nat) (x : Nat) (hx : x ∈ l) : x ≤ maxD l := by
  cases l with
  | nil => cases hx
  | cons d rest =>
    rcases List.mem_cons.mp hx with h | h
    · subst h; exact le_foldl_max_init rest x
    · exact le_foldl_max_mem rest d x h

end Runnersdash

namespace Runnersdash.Resample

theorem find_date (rows : List (Nat × Nat)) (d v : Nat)
    (h : (d, v) ∈ rows) (hnodup : (rows.map (·.1)).Nodup) :
    rows.find? (fun p => decide (p.1 = d)) = some (d, v) := by
  induction rows with
  | nil => cases h
  | cons p rest ih =>
    obtain ⟨d₀, v₀⟩ := p
    rw [List.map_cons, List.nodup_cons] at hnodup
    by_cases hd : d₀ = d
    · subst hd
      rw [List.find?_cons_of_pos _ (by simp)]
      rcases List.mem_cons.mp h with hh | hh
      · rw [← hh]
      · exact absurd (List.mem_map.mpr ⟨(d₀, v), hh, rfl⟩) hnodup.1
    · rw [List.find?_cons_of_neg _ (by simpa using hd)]
      rcases List.mem_cons.mp h with hh | hh
      · exact absurd (congrArg Prod.fst hh).symm hd
      · exact ih hh hnodup.2

/-- C5: for a non-empty daily aggregate (distinct dates, as a `groupby`
output), the resampled frame has exactly one row per calendar day from
the earliest to the latest date, present days keep their row and absent
days get a missing-value row. -/
theorem get_resampled_workout_daily_index (rows : List (Nat × Nat))
    (hne : rows ≠ []) (hnodup : (rows.map (·.1)).Nodup) :
    ((get_resampled_workout rows).map (·.1) =
      (List.range (maxD (rows.map (·.1)) - minD (rows.map (·.1)) + 1)).map
        (fun k => minD (rows.map (·.1)) + k)) ∧
    ((get_resampled_workout rows).length =
      maxD (rows.map (·.1)) - minD (rows.map (·.1)) + 1) ∧
    (∀ p ∈ rows, (p.1, some p.2) ∈ get_resampled_workout rows) ∧
    (∀ d, minD (rows.map (·.1)) ≤ d → d ≤ maxD (rows.map (·.1)) →
      d ∉ rows.map (·.1) → (d, none) ∈ get_resampled_workout rows) := by
  have hemp : ¬ (rows.isEmpty = true) := by simpa using hne
  refine ⟨?_, ?_, ?_, ?_⟩
  · rw [get_resampled_workout, if_neg hemp]
    simp [List.map_map, Function.comp]
  · rw [get_resampled_workout, if_neg hemp]
    simp
  · intro p hp
    obtain ⟨d, v⟩ := p
    have hdm : d ∈ rows.map (·.1) := List.mem_map.mpr ⟨(d, v), hp, rfl⟩
    have h1 : minD (rows.map (·.1)) ≤ d := minD_le _ _ hdm
    have h2 : d ≤ maxD (rows.map (·.1)) := le_maxD _ _ hdm
    rw [get_resampled_workout, if_neg hemp]
    refine List.mem_map.mpr ⟨d - minD (rows.map (·.1)),
      List.mem_range.mpr (by omega), ?_⟩
    have hd : minD (rows.map (·.1)) + (d - minD (rows.map (·.1))) = d := by omega
    rw [hd]
    rw [lookupDate, find_date rows d v hp hnodup]
    rfl
  · intro d hlo hhi hd
    rw [get_resampled_workout, if_neg hemp]
    refine List.mem_map.mpr ⟨d - minD (rows.map (·.1)),
      List.mem_range.mpr (by omega), ?_⟩
    have hdd : minD (rows.map (·.1)) + (d - minD (rows.map (·.1))) = d := by omega
    rw [hdd]
    have hfind : rows.find? (fun p => decide (p.1 = d)) = none := by
      rw [List.find?_eq_none]
      intro p hp hdec
      exact hd (List.mem_map.mpr ⟨p, hp, by simpa using hdec⟩)
    rw [lookupDate, hfind]
    rfl

/-- Witness for `get_resampled_workout_daily_index` on a three-day span
with a gap: day 1 is a missing-value row. -/
theorem get_resampled_workout_daily_index_witness :
    ((0 : Nat), some (10 : Nat)) ∈ get_resampled_workout [(0, 10), (2, 20)] ∧
    ((1 : Nat), (none : Option Nat)) ∈ get_resampled_workout [(0, 10), (2, 20)] ∧
    (get_resampled_workout [(0, 10), (2, 20)]).length = 3 := by
  have h := get_resampled_workout_daily_index [(0, 10), (2, 20)]
    (by decide) (by decide)
  exact ⟨h.2.2.1 (0, 10) (by decide),
    h.2.2.2 1 (by decide) (by decide) (by decide),
    (h.2.1).trans (by decide)⟩

end Runnersdash.Resample

namespace Runnersdash

theorem fold_insert_lookup {ν : Type} (ms : List (List Char)) (v : ν)
    (c : List Char) :
    ∀ a, (dictLookup c a = some v ∨ c ∈ ms) →
      dictLookup c (ms.foldl (fun a m => dictInsert a m v) a) = some v := by
  induction ms with
  | nil =>
    intro a h
    rcases h with h | h
    · exact h
    · cases h
  | cons m ms ih =>
    intro a h
    simp only [List.foldl_cons]
    by_cases hm : m = c
    · subst hm
      exact ih _ (Or.inl (dictLookup_dictInsert_self a m v))
    · refine ih _ ?_
      rcases h with h | h
      · exact Or.inl (by rw [dictLookup_dictInsert_ne a m c v hm]; exact h)
      · rcases List.mem_cons.mp h with h | h
        · exact absurd h.symm hm
        · exact Or.inr h

theorem fold_insert_lookup_ne {ν : Type} (ms : List (List Char)) (v : ν)
    (c : List Char) :
    ∀ a, c ∉ ms →
      dictLookup c (ms.foldl (fun a m => dictInsert a m v) a) = dictLookup c a := by
  induction ms with
  | nil => intro a _; rfl
  | cons m ms ih =>
    intro a h
    have hm : m ≠ c := fun hh => h (hh ▸ List.mem_cons_self m ms)
    simp only [List.foldl_cons]
    rw [ih _ (fun hh => h (List.mem_cons_of_mem _ hh)),
      dictLookup_dictInsert_ne a m c v hm]

theorem fold_insert_fun_lookup_ne {ν : Type} (ms : List (List Char))
    (g : List Char → ν) (c : List Char) :
    ∀ a, c ∉ ms →
      dictLookup c (ms.foldl (fun a x => dictInsert a x (g x)) a) =
        dictLookup c a := by
  induction ms with
  | nil => intro a _; rfl
  | cons m ms ih =>
    intro a h
    have hm : m ≠ c := fun hh => h (hh ▸ List.mem_cons_self m ms)
    simp only [List.foldl_cons]
    rw [ih _ (fun hh => h (List.mem_cons_of_mem _ hh)),
      dictLookup_dictInsert_ne a m c (g m) hm]

theorem dictLookup_some_key {ν : Type} (d : List (List Char × ν))
    (c : List Char) (v : ν) (h : dictLookup c d = some v) :
    ∃ kv ∈ d, kv.1 = c := by
  induction d with
  | nil => simp [dictLookup] at h
  | cons p rest ih =>
    obtain ⟨k, w⟩ := p
    by_cases hk : k = c
    · exact ⟨(k, w), List.mem_cons_self _ _, hk⟩
    · rw [dictLookup, if_neg hk] at h
      obtain ⟨kv, hm, he⟩ := ih h
      exact ⟨kv, List.mem_cons_of_mem _ hm, he⟩

theorem mem_of_mem_eraseFirst (l : List (List Char)) (x y : List Char)
    (h : y ∈ eraseFirst l x) : y ∈ l := by
  induction l with
  | nil => cases h
  | cons z rest ih =>
    rw [eraseFirst] at h
    by_cases hz : z = x
    · rw [if_pos hz] at h
      exact List.mem_cons_of_mem _ h
    · rw [if_neg hz] at h
      rcases List.mem_cons.mp h with hh | hh
      · exact hh ▸ List.mem_cons_self z rest
      · exact List.mem_cons_of_mem _ (ih hh)

theorem nodup_eraseFirst (l : List (List Char)) (x : List Char)
    (h : l.Nodup) : (eraseFirst l x).Nodup := by
  induction l with
  | nil => exact h
  | cons z rest ih =>
    rw [List.nodup_cons] at h
    rw [eraseFirst]
    by_cases hz : z = x
    · rw [if_pos hz]; exact h.2
    · rw [if_neg hz, List.nodup_cons]
      exact ⟨fun hc => h.1 (mem_of_mem_eraseFirst rest x z hc), ih h.2⟩

theorem not_mem_eraseFirst_self (l : List (List Char)) (c : List Char)
    (h : l.Nodup) : c ∉ eraseFirst l c := by
  induction l with
  | nil => simp [eraseFirst]
  | cons z rest ih =>
    rw [List.nodup_cons] at h
    rw [eraseFirst]
    by_cases hz : z = c
    · rw [if_pos hz]
      exact hz ▸ h.1
    · rw [if_neg hz]
      intro hc
      rcases List.mem_cons.mp hc with hh | hh
      · exact hz hh.symm
      · exact ih h.2 hh

theorem not_mem_fold_erase {ν : Type} (kvs : List (List Char × ν))
    (c : List Char) :
    ∀ rem, c ∉ rem →
      c ∉ kvs.foldl (fun rem kv => eraseFirst rem kv.1) rem := by
  induction kvs with
  | nil => intro rem h; exact h
  | cons kv rest ih =>
    intro rem h
    simp only [List.foldl_cons]
    exact ih _ (fun hc => h (mem_of_mem_eraseFirst rem kv.1 c hc))

theorem not_mem_remaining {ν : Type} (kvs : List (List Char × ν))
    (c : List Char) :
    ∀ cols : List (List Char), cols.Nodup → (∃ kv ∈ kvs, kv.1 = c) →
      c ∉ kvs.foldl (fun rem kv => eraseFirst rem kv.1) cols := by
  induction kvs with
  | nil =>
    intro cols _ hkey
    obtain ⟨kv, hm, _⟩ := hkey
    cases hm
  | cons kv rest ih =>
    intro cols hnodup hkey
    simp only [List.foldl_cons]
    by_cases hk : kv.1 = c
    · exact not_mem_fold_erase rest c _
        (hk ▸ not_mem_eraseFirst_self cols c hnodup)
    · obtain ⟨kv', hm, he⟩ := hkey
      rcases List.mem_cons.mp hm with hh | hh
      · exact absurd (hh ▸ he) hk
      · exact ih _ (nodup_eraseFirst cols kv.1 hnodup) ⟨kv', hh, he⟩

end Runnersdash

namespace Runnersdash.Weekly

theorem phase1_preserve (entries : List (List Char × AggSpec))
    (cols : List (List Char)) (c : List Char) (v : AggSpec) :
    ∀ agg, dictLookup c agg = some v →
      (∀ p ∈ entries, containsSub p.1 c = false ∨ p.2 = v) →
      dictLookup c (entries.foldl (fun agg sv =>
        (cols.filter (fun x => containsSub sv.1 x)).foldl
          (fun a m => dictInsert a m sv.2) agg) agg) = some v := by
  induction entries with
  | nil => intro agg h _; exact h
  | cons sv rest ih =>
    intro agg h hall
    simp only [List.foldl_cons]
    refine ih _ ?_ (fun p hp => hall p (List.mem_cons_of_mem _ hp))
    by_cases hcs : containsSub sv.1 c = true
    · have hv : sv.2 = v := by
        rcases hall sv (List.mem_cons_self _ _) with hh | hh
        · rw [hcs] at hh; cases hh
        · exact hh
      rw [hv]
      exact fold_insert_lookup _ v c agg (Or.inl h)
    · have hnm : c ∉ cols.filter (fun x => containsSub sv.1 x) := by
        intro hc
        exact hcs (List.mem_filter.mp hc).2
      rw [fold_insert_lookup_ne _ sv.2 c agg hnm]
      exact h

theorem phase1_total_distance (cols : List (List Char)) (c : List Char)
    (hc : c ∈ cols) (htd : containsSub "Total Distance".toList c = true)
    (hrec : ∀ r ∈ recordCases, containsSub r c = false) :
    dictLookup c (weeklySpecialCases.foldl (fun agg sv =>
      (cols.filter (fun x => containsSub sv.1 x)).foldl
        (fun a m => dictInsert a m sv.2) agg) []) =
    some (AggSpec.many ["sum", "mean", "min", "max"]) := by
  have hsc : weeklySpecialCases =
      [("Duration".toList, AggSpec.many ["sum", "mean", "min", "max"])] ++
      ("Total Distance".toList, AggSpec.many ["sum", "mean", "min", "max"]) ::
      [("Total Energy Burned".toList, AggSpec.many ["sum", "mean", "min", "max"]),
       ("Resting Heart Rate".toList, AggSpec.many ["mean", "std"]),
       ("VO2 Max".toList, AggSpec.many ["mean", "std"]),
       ("Body Mass".toList, AggSpec.many ["mean", "std"]),
       ("Heart Rate Variability SDNN".toList, AggSpec.many ["mean", "std"]),
       ("Blood Pressure".toList, AggSpec.many ["mean", "std"]),
       ("Respiratory Rate".toList, AggSpec.many ["mean", "std"])] := by
    decide
  rw [hsc, List.foldl_append, List.foldl_cons]
  refine phase1_preserve _ cols c _ _ ?_ ?_
  · exact fold_insert_lookup _ _ c _
      (Or.inr (List.mem_filter.mpr ⟨hc, htd⟩))
  · intro p hp
    fin_cases hp
    · exact Or.inr rfl
    · exact Or.inl (hrec _ (by decide))
    · exact Or.inl (hrec _ (by decide))
    · exact Or.inl (hrec _ (by decide))
    · exact Or.inl (hrec _ (by decide))
    · exact Or.inl (hrec _ (by decide))
    · exact Or.inl (hrec _ (by decide))

theorem get_weekly_agg_method_total_distance (cols : List (List Char))
    (c : List Char) (hnodup : cols.Nodup) (hc : c ∈ cols)
    (htd : containsSub "Total Distance".toList c = true)
    (hrec : ∀ r ∈ recordCases, containsSub r c = false) :
    dictLookup c (get_weekly_agg_method cols) =
      some (AggSpec.many ["sum", "mean", "min", "max"]) := by
  rw [get_weekly_agg_method]
  have h1 := phase1_total_distance cols c hc htd hrec
  have hkey := dictLookup_some_key _ c _ h1
  have h2 := not_mem_remaining _ c cols hnodup hkey
  rw [fold_insert_fun_lookup_ne _ weeklyRemainingFor c _ h2]
  exact h1

/-- C3 counterexample: daily rows on day 0 and day 14 (both Mondays)
with nothing in the week of day 7: the weekly grouping yields three
rows — one of them for the empty middle week — although only two ISO
weeks contain an input day. -/
theorem aggregate_weekly_gap_week_counterexample :
    aggregate_weekly [(0, 10), (14, 20)] = [(0, [10]), (7, []), (14, [20])] ∧
    (aggregate_weekly [(0, 10), (14, 20)]).length = 3 ∧
    ((([(0, 10), (14, 20)] : List (Nat × Int)).map
      (fun p => weekStart p.1)).dedup).length = 2 := by
  refine ⟨by decide, by decide, by decide⟩

/-- C3 (amended): for a non-empty daily aggregate, the weekly grouping
produces exactly one row per Monday-starting week from the week of the
earliest day to the week of the latest day — including weeks with no
input day, which get an empty row; each input day is assigned to the
row of the Monday-starting week containing it; and every column
matching `'Total Distance'` (and no record-statistic name) has `'sum'`
among its aggregation methods. -/
theorem aggregate_weekly_bins_and_sum (rows : List (Nat × Int))
    (hne : rows ≠ []) :
    ((aggregate_weekly rows).map (·.1) =
      weekRange (weekStart (minD (rows.map (·.1))))
        (weekStart (maxD (rows.map (·.1))))) ∧
    (∀ b bs, (b, bs) ∈ aggregate_weekly rows →
      bs = (rows.filter (fun p => decide (weekStart p.1 = b))).map (·.2)) ∧
    (∀ p ∈ rows,
      (weekStart p.1,
        (rows.filter (fun q => decide (weekStart q.1 = weekStart p.1))).map
          (·.2)) ∈ aggregate_weekly rows ∧
      p.2 ∈ (rows.filter
        (fun q => decide (weekStart q.1 = weekStart p.1))).map (·.2)) ∧
    (∀ cols c, cols.Nodup → c ∈ cols →
      containsSub "Total Distance".toList c = true →
      (∀ r ∈ recordCases, containsSub r c = false) →
      ∃ v, dictLookup c (get_weekly_agg_method cols) = some v ∧
        "sum" ∈ methodsOf v) := by
  have hemp : ¬ (rows.isEmpty = true) := by simpa using hne
  refine ⟨?_, ?_, ?_, ?_⟩
  · rw [aggregate_weekly, if_neg hemp, List.map_map]
    show List.map (fun b => b) _ = _
    simp
  · intro b bs hmem
    rw [aggregate_weekly, if_neg hemp] at hmem
    obtain ⟨b', hb', heq⟩ := List.mem_map.mp hmem
    injection heq with h1 h2
    subst h1
    exact h2.symm
  · intro p hp
    have hdm : p.1 ∈ rows.map (·.1) := List.mem_map.mpr ⟨p, hp, rfl⟩
    have h1 : minD (rows.map (·.1)) ≤ p.1 := minD_le _ _ hdm
    have h2 : p.1 ≤ maxD (rows.map (·.1)) := le_maxD _ _ hdm
    constructor
    · rw [aggregate_weekly, if_neg hemp]
      refine List.mem_map.mpr ⟨weekStart p.1, ?_, rfl⟩
      rw [weekRange]
      refine List.mem_map.mpr
        ⟨p.1 / 7 - minD (rows.map (·.1)) / 7, List.mem_range.mpr ?_, ?_⟩
      · simp only [weekStart]
        omega
      · simp only [weekStart]
        omega
    · exact List.mem_map.mpr ⟨p, List.mem_filter.mpr ⟨hp, by simp⟩, rfl⟩
  · intro cols c hnodup hc htd hrec
    exact ⟨AggSpec.many ["sum", "mean", "min", "max"],
      get_weekly_agg_method_total_distance cols c hnodup hc htd hrec,
      by decide⟩

/-- Witness for `aggregate_weekly_bins_and_sum`: a two-week span is
binned into the two Mondays `[0, 7]`, and the column
`'Total Distance (km)'` is summed. -/
theorem aggregate_weekly_bins_and_sum_witness :
    (aggregate_weekly [(0, 10), (8, 20)]).map (fun p => p.1) = [0, 7] ∧
    (∃ v, dictLookup "Total Distance (km)".toList
        (get_weekly_agg_method
          ["Total Distance (km)".toList, "VO2Max".toList]) = some v ∧
      "sum" ∈ methodsOf v) := by
  have h := aggregate_weekly_bins_and_sum [(0, 10), (8, 20)] (by decide)
  exact ⟨h.1.trans (by decide),
    h.2.2.2 ["Total Distance (km)".toList, "VO2Max".toList]
      "Total Distance (km)".toList (by decide) (by decide) (by decide)
      (by decide)⟩

end Runnersdash.Weekly

namespace Runnersdash.Extract

theorem rowsFor_append (w₁ w₂ : List (List Char × List Nat)) (t : List Char) :
    rowsFor (w₁ ++ w₂) t = rowsFor w₁ t ++ rowsFor w₂ t := by
  induction w₁ with
  | nil => rfl
  | cons p rest ih => simp [rowsFor, ih, List.append_assoc]

theorem rowsFor_eq_nil_of_not_key (q : List (List Char × List Nat))
    (t : List Char) (h : t ∉ q.map (·.1)) : rowsFor q t = [] := by
  induction q with
  | nil => rfl
  | cons p rest ih =>
    have hp : ¬ p.1 = t := fun hh =>
      h (List.mem_map.mpr ⟨p, List.mem_cons_self p rest, hh⟩)
    have hr : t ∉ rest.map (·.1) := fun hh =>
      h (by rw [List.map_cons]; exact List.mem_cons_of_mem _ hh)
    rw [rowsFor, if_neg hp, ih hr]
    rfl

theorem keysOf_pushRow_sub (q : Queue) (k : List Char) (r : Nat) :
    ∀ x ∈ keysOf (pushRow q k r), x ∈ keysOf q ∨ x = k := by
  induction q with
  | nil =>
    intro x hx
    simp [pushRow, keysOf] at hx
    exact Or.inr hx
  | cons p rest ih =>
    obtain ⟨k', l⟩ := p
    intro x hx
    by_cases hk : k' = k
    · rw [pushRow, if_pos hk] at hx
      exact Or.inl hx
    · rw [pushRow, if_neg hk] at hx
      rcases List.mem_cons.mp hx with hh | hh
      · exact Or.inl (by rw [keysOf, List.map_cons]; exact hh ▸ List.mem_cons_self _ _)
      · rcases ih x hh with h' | h'
        · exact Or.inl (by rw [keysOf, List.map_cons]; exact List.mem_cons_of_mem _ h')
        · exact Or.inr h'

theorem nodup_keys_pushRow (q : Queue) (k : List Char) (r : Nat)
    (h : (keysOf q).Nodup) : (keysOf (pushRow q k r)).Nodup := by
  induction q with
  | nil => simp [pushRow, keysOf]
  | cons p rest ih =>
    obtain ⟨k', l⟩ := p
    rw [keysOf, List.map_cons, List.nodup_cons] at h
    by_cases hk : k' = k
    · rw [pushRow, if_pos hk, keysOf, List.map_cons, List.nodup_cons]
      exact ⟨h.1, h.2⟩
    · rw [pushRow, if_neg hk, keysOf, List.map_cons, List.nodup_cons]
      refine ⟨?_, ih h.2⟩
      intro hc
      rcases keysOf_pushRow_sub rest k r k' hc with h' | h'
      · exact h.1 h'
      · exact hk h'

theorem rowsFor_pushRow (q : Queue) (k : List Char) (r : Nat) (t : List Char)
    (h : (keysOf q).Nodup) :
    rowsFor (pushRow q k r) t = rowsFor q t ++ (if k = t then [r] else []) := by
  induction q with
  | nil =>
    by_cases hk : k = t <;> simp [pushRow, rowsFor, hk]
  | cons p rest ih =>
    obtain ⟨k', l⟩ := p
    rw [keysOf, List.map_cons, List.nodup_cons] at h
    by_cases hk : k' = k
    · rw [pushRow, if_pos hk]
      by_cases ht : k' = t
      · have hkt : k = t := hk ▸ ht
        have hrest : rowsFor rest t = [] :=
          rowsFor_eq_nil_of_not_key rest t (ht ▸ h.1)
        rw [rowsFor, if_pos ht, rowsFor, if_pos ht, hrest, if_pos hkt]
        simp
      · have hkt : ¬ k = t := fun hh => ht (hk.symm ▸ hh)
        rw [rowsFor, if_neg ht, rowsFor, if_neg ht, if_neg hkt]
        simp
    · rw [pushRow, if_neg hk, rowsFor, rowsFor, ih h.2, List.append_assoc]

theorem rowsFor_filter_nonempty (q : Queue) (t : List Char) :
    rowsFor (q.filter (fun p => !p.2.isEmpty)) t = rowsFor q t := by
  induction q with
  | nil => rfl
  | cons p rest ih =>
    obtain ⟨k, l⟩ := p
    rw [List.filter_cons]
    by_cases hl : l.isEmpty
    · have hl' : l = [] := List.isEmpty_iff.mp hl
      subst hl'
      rw [if_neg (by simp), ih]
      simp [rowsFor]
    · have hlf : l.isEmpty = false := Bool.eq_false_iff.mpr hl
      rw [if_pos (by rw [hlf]; rfl), rowsFor, rowsFor, ih]

theorem rowsFor_map_empty (q : Queue) (t : List Char) :
    rowsFor (q.map (fun p => (p.1, ([] : List Nat)))) t = [] := by
  induction q with
  | nil => rfl
  | cons p rest ih =>
    rw [List.map_cons, rowsFor, ih]
    simp

theorem keysOf_map_empty (q : Queue) :
    keysOf (q.map (fun p => (p.1, ([] : List Nat)))) = keysOf q := by
  induction q with
  | nil => rfl
  | cons p rest ih =>
    rw [List.map_cons, keysOf, List.map_cons, ← keysOf, ih]
    rfl

theorem flushRecord_rows (q : Queue) (t : List Char) :
    rowsFor (flushChunkRecord q).1 t ++ rowsFor (flushChunkRecord q).2 t =
      rowsFor q t := by
  show rowsFor (q.filter (fun p => !p.2.isEmpty)) t ++
    rowsFor (q.map (fun p => (p.1, ([] : List Nat)))) t = rowsFor q t
  rw [rowsFor_filter_nonempty, rowsFor_map_empty, List.append_nil]

theorem flushWorkout_rows (q : Queue) (t : List Char) :
    rowsFor (flushChunkWorkout q).1 t ++ rowsFor (flushChunkWorkout q).2 t =
      rowsFor q t := by
  show rowsFor q t ++
    rowsFor (q.map (fun p => (p.1, ([] : List Nat)))) t = rowsFor q t
  rw [rowsFor_map_empty, List.append_nil]

theorem flushRecord_keys (q : Queue) (h : (keysOf q).Nodup) :
    (keysOf (flushChunkRecord q).2).Nodup := by
  show (keysOf (q.map (fun p => (p.1, ([] : List Nat))))).Nodup
  rw [keysOf_map_empty]
  exact h

theorem flushWorkout_keys (q : Queue) (h : (keysOf q).Nodup) :
    (keysOf (flushChunkWorkout q).2).Nodup := by
  show (keysOf (q.map (fun p => (p.1, ([] : List Nat))))).Nodup
  rw [keysOf_map_empty]
  exact h

theorem drainQueue_spec (q : Queue) (t : List Char) :
    rowsFor (drainQueue q).1 t = rowsFor q t ∧ (drainQueue q).2 = [] := by
  induction q with
  | nil => exact ⟨rfl, rfl⟩
  | cons p rest ih =>
    obtain ⟨k, l⟩ := p
    constructor
    · rw [drainQueue, rowsFor_append, ih.1]
      by_cases hl : l.isEmpty
      · have hl' : l = [] := List.isEmpty_iff.mp hl
        subst hl'
        rw [if_pos hl]
        simp [rowsFor]
      · rw [if_neg hl, rowsFor, rowsFor]
        simp [rowsFor]
    · rw [drainQueue]
      exact ih.2

theorem runLoop_spec (chunk : Nat) (strip : List Char → List Char)
    (flush : Queue → (List (List Char × List Nat)) × Queue)
    (hflush : ∀ q t, rowsFor (flush q).1 t ++ rowsFor (flush q).2 t = rowsFor q t)
    (hkeys : ∀ q, (keysOf q).Nodup → (keysOf (flush q).2).Nodup)
    (nodes : List (List Char × Nat)) :
    ∀ i st, (keysOf st.2).Nodup →
      (keysOf (runLoop chunk strip flush nodes i st).2).Nodup ∧
      ∀ t, rowsFor (runLoop chunk strip flush nodes i st).1 t ++
          rowsFor (runLoop chunk strip flush nodes i st).2 t =
        rowsFor st.1 t ++ rowsFor st.2 t ++
          (nodes.filter (fun n => decide (strip n.1 = t))).map (·.2) := by
  induction nodes with
  | nil =>
    intro i st h
    exact ⟨h, fun t => by simp [runLoop]⟩
  | cons n rest ih =>
    intro i st h
    have hst1 : ∃ w1 q1,
        stepNode chunk strip flush st i n = (w1, pushRow q1 (strip n.1) n.2) ∧
        (keysOf q1).Nodup ∧
        (∀ t, rowsFor w1 t ++ rowsFor q1 t = rowsFor st.1 t ++ rowsFor st.2 t) := by
      by_cases hi : i % chunk = 0
      · refine ⟨st.1 ++ (flush st.2).1, (flush st.2).2, ?_, hkeys st.2 h,
          fun t => ?_⟩
        · simp [stepNode, hi]
        · rw [rowsFor_append, List.append_assoc, hflush st.2 t]
      · exact ⟨st.1, st.2, by simp [stepNode, hi], h, fun t => rfl⟩
    obtain ⟨w1, q1, heq, hq1, hrows⟩ := hst1
    have hstep1 : (keysOf (stepNode chunk strip flush st i n).2).Nodup := by
      rw [heq]
      exact nodup_keys_pushRow q1 (strip n.1) n.2 hq1
    obtain ⟨ha, hb⟩ := ih (i + 1) (stepNode chunk strip flush st i n) hstep1
    refine ⟨by rw [runLoop]; exact ha, fun t => ?_⟩
    rw [runLoop, hb t, heq]
    rw [rowsFor_pushRow q1 (strip n.1) n.2 t hq1]
    by_cases hn : strip n.1 = t
    · have hfc : ((n :: rest).filter (fun m => decide (strip m.1 = t))).map
          (fun x => x.2) = n.2 ::
            (rest.filter (fun m => decide (strip m.1 = t))).map (fun x => x.2) := by
        simp [List.filter_cons, hn]
      rw [hfc, if_pos hn]
      simp only [← List.append_assoc]
      rw [hrows t]
      simp [List.append_assoc]
    · have hfc : ((n :: rest).filter (fun m => decide (strip m.1 = t))).map
          (fun x => x.2) =
            (rest.filter (fun m => decide (strip m.1 = t))).map (fun x => x.2) := by
        simp [List.filter_cons, hn]
      rw [hfc, if_neg hn]
      simp only [← List.append_assoc]
      rw [hrows t]
      simp

/-- C1: across the chunked flushes and the final flush, the rows ever
written to table `t` by `extract_record_elements`
(resp. `extract_workout_elements`) are exactly the rows of the
processed nodes whose stripped type is `t`, in order — each node's row
is written exactly once, never dropped or duplicated — and the final
in-memory queue is empty. -/
theorem extract_elements_write_each_row_once (chunk : Nat)
    (hchunk : 0 < chunk) (nodes : List (List Char × Nat)) (t : List Char) :
    rowsFor (extract_record_elements chunk nodes).1 t =
      (nodes.filter (fun n => decide (stripRecordType n.1 = t))).map (·.2) ∧
    (extract_record_elements chunk nodes).2 = [] ∧
    rowsFor (extract_workout_elements chunk nodes).1 t =
      (nodes.filter (fun n => decide (stripWorkoutType n.1 = t))).map (·.2) ∧
    (extract_workout_elements chunk nodes).2 = [] := by
  have hrec := runLoop_spec chunk stripRecordType flushChunkRecord
    flushRecord_rows flushRecord_keys nodes 1 ([], []) (by simp [keysOf])
  have hwork := runLoop_spec chunk stripWorkoutType flushChunkWorkout
    flushWorkout_rows flushWorkout_keys nodes 1 ([], []) (by simp [keysOf])
  have e1 : extract_record_elements chunk nodes =
      ((runLoop chunk stripRecordType flushChunkRecord nodes 1 ([], [])).1 ++
        (drainQueue
          (runLoop chunk stripRecordType flushChunkRecord nodes 1 ([], [])).2).1,
       (drainQueue
         (runLoop chunk stripRecordType flushChunkRecord nodes 1 ([], [])).2).2) :=
    rfl
  have e2 : extract_workout_elements chunk nodes =
      ((runLoop chunk stripWorkoutType flushChunkWorkout nodes 1 ([], [])).1 ++
        (drainQueue
          (runLoop chunk stripWorkoutType flushChunkWorkout nodes 1 ([], [])).2).1,
       (drainQueue
         (runLoop chunk stripWorkoutType flushChunkWorkout nodes 1 ([], [])).2).2) :=
    rfl
  refine ⟨?_, ?_, ?_, ?_⟩
  · rw [e1]
    show rowsFor ((runLoop chunk stripRecordType flushChunkRecord nodes 1
        ([], [])).1 ++ (drainQueue (runLoop chunk stripRecordType
          flushChunkRecord nodes 1 ([], [])).2).1) t = _
    rw [rowsFor_append, (drainQueue_spec _ t).1]
    have h := hrec.2 t
    simpa [rowsFor] using h
  · rw [e1]
    exact (drainQueue_spec _ t).2
  · rw [e2]
    show rowsFor ((runLoop chunk stripWorkoutType flushChunkWorkout nodes 1
        ([], [])).1 ++ (drainQueue (runLoop chunk stripWorkoutType
          flushChunkWorkout nodes 1 ([], [])).2).1) t = _
    rw [rowsFor_append, (drainQueue_spec _ t).1]
    have h := hwork.2 t
    simpa [rowsFor] using h
  · rw [e2]
    exact (drainQueue_spec _ t).2

/-- Witness for `extract_elements_write_each_row_once`: three Record
nodes, two of type `StepCount`, with `chunk_size = 2` (so one chunk
flush happens mid-loop): rows `0` and `2` and nothing else reach table
`StepCount`, and the queues end empty. -/
theorem extract_elements_write_each_row_once_witness :
    rowsFor (extract_record_elements 2
      [("HKQuantityTypeIdentifierStepCount".toList, 0),
       ("HKQuantityTypeIdentifierHeartRate".toList, 1),
       ("HKQuantityTypeIdentifierStepCount".toList, 2)]).1
      "StepCount".toList = [0, 2] ∧
    (extract_record_elements 2
      [("HKQuantityTypeIdentifierStepCount".toList, 0),
       ("HKQuantityTypeIdentifierHeartRate".toList, 1),
       ("HKQuantityTypeIdentifierStepCount".toList, 2)]).2 = [] ∧
    rowsFor (extract_workout_elements 2
      [("HKWorkoutActivityTypeRunning".toList, 0),
       ("HKWorkoutActivityTypeWalking".toList, 1),
       ("HKWorkoutActivityTypeRunning".toList, 2)]).1
      "Running".toList = [0, 2] ∧
    (extract_workout_elements 2
      [("HKWorkoutActivityTypeRunning".toList, 0),
       ("HKWorkoutActivityTypeWalking".toList, 1),
       ("HKWorkoutActivityTypeRunning".toList, 2)]).2 = [] := by
  have h1 := extract_elements_write_each_row_once 2 (by decide)
    [("HKQuantityTypeIdentifierStepCount".toList, 0),
     ("HKQuantityTypeIdentifierHeartRate".toList, 1),
     ("HKQuantityTypeIdentifierStepCount".toList, 2)] "StepCount".toList
  have h2 := extract_elements_write_each_row_once 2 (by decide)
    [("HKWorkoutActivityTypeRunning".toList, 0),
     ("HKWorkoutActivityTypeWalking".toList, 1),
     ("HKWorkoutActivityTypeRunning".toList, 2)] "Running".toList
  exact ⟨h1.1.trans (by decide), h1.2.1, h2.2.2.1.trans (by decide), h2.2.2.2⟩

end Runnersdash.Extract
